import Mathlib

/-!
Shallow embedding of `src/bullhorn_data.py` (Ansible Bullhorn forum data
extractor) and proofs about it.

The Python program has four stages:
* `fetch_all_bullhorn_topics` — paginated topic listing;
* `fetch_raw_markdown` — per-post raw content fetch;
* `extract_user_and_link` — per-line regex extraction of (user, matrix link);
* aggregation: `count_users_per_post`, `count_contributions_per_user`,
  enrichment with titles, and a descending sort of per-user totals in `main`.

Network effects are modelled by passing the outcome of each remote call as
an explicit argument (a `PageResult` per page, a `FetchOutcome` per post).
-/

namespace Bullhorn

/-! ### Contribution records and the extractor

`extract_user_and_link` applies, to each line of the markdown text,

  re.search(r"\[(.*?)\]\((https://matrix\.to/#/@[^)]+)\).*(shared|said|contributed)",
            line, re.IGNORECASE)

and, when the line matches, records `(post_id, group(1), group(2))`.
The functions below implement the backtracking semantics of `re.search`
for exactly this pattern:

* the match start is leftmost (`searchLine` scans start positions left to
  right);
* `(.*?)` is lazy: `matchAfterBracket` first tries to close the bracket at
  the current position and only then extends group 1 by one character;
  `.` does not match a newline character;
* `\(https://matrix\.to/#/@` is matched case-insensitively
  (`re.IGNORECASE`), the captured text keeps the original case;
* `[^)]+` is effectively deterministic: it consumes the maximal nonempty
  run of characters other than a closing parenthesis, and the following
  `\)` forces that run to end exactly at the first closing parenthesis
  (`splitAtParen`);
* `.*(shared|said|contributed)` succeeds iff one of the keywords occurs,
  case-insensitively, in the rest of the line before any newline
  character; the captured keyword is discarded by the Python code, so only
  existence matters (`containsKeyword`).
-/

/-- Python `str.strip()` (no argument): drop leading and trailing
whitespace. `Char.isWhitespace` covers the ASCII whitespace that occurs in
this data. -/
def strip (s : String) : String :=
  String.mk
    (((s.data.dropWhile Char.isWhitespace).reverse.dropWhile
      Char.isWhitespace).reverse)

/-- One extracted contribution: the dict
`{"post_id": ..., "user": ..., "matrix_link": ...}` built per match. -/
structure ContributionRecord where
  post_id : Int
  user : String
  matrix_link : String
deriving DecidableEq, Repr

/-- The default keyword tuple `("shared", "said", "contributed")`. -/
def keywords : List String := ["shared", "said", "contributed"]

/-- Case-insensitive character comparison, as `re.IGNORECASE` does for
ASCII. -/
def chEqCI (a b : Char) : Bool := a.toLower == b.toLower

/-- Does `cs` start with `pat`, case-insensitively? -/
def startsWithCI : List Char → List Char → Bool
  | [], _ => true
  | _ :: _, [] => false
  | p :: ps, c :: cs => chEqCI p c && startsWithCI ps cs

/-- Does `pat` occur, case-insensitively, anywhere in `cs`? -/
def containsCI (pat : List Char) : List Char → Bool
  | [] => startsWithCI pat []
  | c :: cs => startsWithCI pat (c :: cs) || containsCI pat cs

/-- Does one of the keywords occur, case-insensitively, in `cs`? -/
def containsKeyword (cs : List Char) : Bool :=
  keywords.any (fun k => containsCI k.data cs)

/-- The literal part `https://matrix\.to/#/@` of the link group. -/
def matrixStart : List Char := "https://matrix.to/#/@".data

/-- Split at the first closing parenthesis: `splitAtParen cs = some (a, b)`
iff `cs = a ++ ')' :: b` with `a` free of closing parentheses. This is how
`[^)]+\)` consumes its input (with the extra requirement `a ≠ []`, checked
by the caller). -/
def splitAtParen : List Char → Option (List Char × List Char)
  | [] => none
  | c :: rest =>
    if c = ')' then some ([], rest)
    else (splitAtParen rest).map (fun p => (c :: p.1, p.2))

/-- Match `https://matrix\.to/#/@[^)]+\)` at the front of `cs`. Returns the
captured group 2 (original case) and the remainder after the closing
parenthesis. -/
def matchLink (cs : List Char) : Option (List Char × List Char) :=
  if startsWithCI matrixStart cs then
    match splitAtParen (cs.drop matrixStart.length) with
    | some (body, rest) =>
      if body.isEmpty then none
      else some (cs.take matrixStart.length ++ body, rest)
    | none => none
  else none

/-- Try to match `\]\((https://matrix\.to/#/@[^)]+)\).*(keyword)` at the
front of `cs`; on success return the captured link. Keyword search stops at
a newline because `.` does not cross one. -/
def tryCloseAt : List Char → Option (List Char)
  | c1 :: c2 :: rest =>
    if c1 = ']' then
      if c2 = '(' then
        match matchLink rest with
        | some la =>
          if containsKeyword (la.2.takeWhile (fun c => c != '\n')) then some la.1
          else none
        | none => none
      else none
    else none
  | _ => none

/-- Lazy expansion of group 1 after the opening `[`: first try to close the
bracket here (shortest group 1 wins), otherwise extend group 1 by one
character — but group 1 is `(.*?)` and `.` does not match a newline. -/
def matchAfterBracket (acc : List Char) : List Char → Option (List Char × List Char)
  | [] => none
  | c :: rest =>
    match tryCloseAt (c :: rest) with
    | some link => some (acc.reverse, link)
    | none => if c == '\n' then none else matchAfterBracket (c :: acc) rest

/-- Match the whole pattern at the start of `cs`: `(user, link)` groups. -/
def matchAt (cs : List Char) : Option (List Char × List Char) :=
  match cs with
  | '[' :: rest => matchAfterBracket [] rest
  | _ => none

/-- `re.search`: the match at the leftmost start position, if any. -/
def searchLine : List Char → Option (List Char × List Char)
  | [] => none
  | c :: rest =>
    match matchAt (c :: rest) with
    | some r => some r
    | none => searchLine rest

/-- `str.splitlines` restricted to the line breaks that occur in practice
(`\n`, `\r\n`, `\r`): a trailing break does not produce an empty final
line. -/
def splitlinesAux (acc : List Char) : List Char → List String
  | [] => if acc.isEmpty then [] else [String.mk acc.reverse]
  | '\r' :: '\n' :: rest => String.mk acc.reverse :: splitlinesAux [] rest
  | '\n' :: rest => String.mk acc.reverse :: splitlinesAux [] rest
  | '\r' :: rest => String.mk acc.reverse :: splitlinesAux [] rest
  | c :: rest => splitlinesAux (c :: acc) rest

/-- `markdown_text.splitlines()`. -/
def splitlines (s : String) : List String := splitlinesAux [] s.data

/-- `extract_user_and_link(post_id, markdown_text)`: one record per line
with a match (first match only), in line order. -/
def extract_user_and_link (post_id : Int) (markdown_text : String) :
    List ContributionRecord :=
  (splitlines markdown_text).filterMap (fun line =>
    (searchLine line.data).map (fun r =>
      ContributionRecord.mk post_id (String.mk r.1) (String.mk r.2)))

/-! ### Topic Lister — `fetch_all_bullhorn_topics`

The loop fetches page 0, 1, 2, … of the category listing. A request
failure (`requests.RequestException`, which `raise_for_status` also
throws on a non-success status) breaks the loop; an empty `topics` array
breaks the loop; otherwise each topic dict is processed and the loop
continues. The sequence of remote responses is passed in as
`pages : Nat → PageResult`; the loop is given fuel because the Python
`while True` has no bound of its own — the theorems only concern runs in
which some page terminates the loop before the fuel runs out. -/

/-- One topic dict of a page's `topic_list.topics` array: the fields the
code reads with `.get`, each possibly absent. -/
structure RawTopic where
  id : Option Int
  title : Option String
  views : Option Int
  like_count : Option Int
deriving DecidableEq, Repr

/-- One row of `views_per_edition`: the dict
`{"id": ..., "title": ..., "views": ..., "like_count": ...}`. -/
structure Topic where
  id : Int
  title : String
  views : Int
  like_count : Int
deriving DecidableEq, Repr

/-- Outcome of fetching one listing page: a `requests.RequestException`
(network error or, via `raise_for_status`, a non-success status), or a
parsed `topic_list.topics` array. -/
inductive PageResult where
  | failure : PageResult
  | success : List RawTopic → PageResult
deriving DecidableEq, Repr

/-- Python truthiness of `topic.get("id")`: `None` and `0` are falsy, so
`if topic_id:` skips a topic whose id is absent or zero. -/
def truthyId : Option Int → Bool
  | none => false
  | some n => n != 0

/-- The `for topic in topics:` body: append id and metadata row for every
topic with a truthy id; `title` is stripped, absent fields default
(`title`: `""`, `views`/`like_count`: `0`). -/
def processTopics (topics : List RawTopic) : List Int × List Topic :=
  topics.foldl
    (fun acc t =>
      if truthyId t.id then
        (acc.1 ++ [t.id.getD 0],
         acc.2 ++ [Topic.mk (t.id.getD 0) (strip (t.title.getD ""))
           (t.views.getD 0) (t.like_count.getD 0)])
      else acc)
    ([], [])

/-- The `while True` loop of `fetch_all_bullhorn_topics`, with explicit
fuel, current page number and accumulators. -/
def fetchLoop (pages : Nat → PageResult) :
    Nat → Nat → List Int → List Topic → List Int × List Topic
  | 0, _, ids, ves => (ids, ves)
  | fuel + 1, page, ids, ves =>
    match pages page with
    | .failure => (ids, ves)
    | .success topics =>
      if topics.isEmpty then (ids, ves)
      else
        fetchLoop pages fuel (page + 1)
          (ids ++ (processTopics topics).1) (ves ++ (processTopics topics).2)

/-- `fetch_all_bullhorn_topics()`: returns `(post_ids, views_per_edition)`. -/
def fetch_all_bullhorn_topics (pages : Nat → PageResult) (fuel : Nat) :
    List Int × List Topic :=
  fetchLoop pages fuel 0 [] []

/-- A page response that breaks the loop: a fetch failure or an empty
topics array. -/
def isTerminal : PageResult → Bool
  | .failure => true
  | .success [] => true
  | .success (_ :: _) => false

/-- A page response that keeps the loop going. -/
def nonEmptySuccess : PageResult → Bool
  | .success (_ :: _) => true
  | _ => false

/-- The topics array of a page response (empty for a failure). -/
def topicsOf : PageResult → List RawTopic
  | .failure => []
  | .success ts => ts

/-- The post ids accumulated from pages `0 .. n-1`, page order then
intra-page order. -/
def pagesIds (pages : Nat → PageResult) (n : Nat) : List Int :=
  ((List.range n).map (fun i => (processTopics (topicsOf (pages i))).1)).flatten

/-- The metadata rows accumulated from pages `0 .. n-1`, page order then
intra-page order. -/
def pagesTopics (pages : Nat → PageResult) (n : Nat) : List Topic :=
  ((List.range n).map (fun i => (processTopics (topicsOf (pages i))).2)).flatten

/-! ### Content Fetcher — `fetch_raw_markdown` -/

/-- The ways `requests.get` + `raise_for_status` can fail: a timeout, a
transport error, or a non-success HTTP status. All are subclasses of
`requests.RequestException`, the one exception type the code catches. -/
inductive RequestError where
  | timeout : RequestError
  | connectionError : RequestError
  | httpStatus : Nat → RequestError
deriving DecidableEq, Repr

/-- Outcome of the single `requests.get` in `fetch_raw_markdown`: a
successful response body, or a `RequestError`. -/
inductive FetchOutcome where
  | ok : String → FetchOutcome
  | err : RequestError → FetchOutcome
deriving DecidableEq, Repr

/-- `fetch_raw_markdown(post_id)` as a function of the outcome of its one
remote call: `response.text` on success, `""` on any caught failure. -/
def fetch_raw_markdown : FetchOutcome → String
  | .ok text => text
  | .err _ => ""

/-! ### Aggregation — `count_users_per_post`, `count_contributions_per_user`,
enrichment and the sorted export in `main` -/

/-- `count_users_per_post(filtered_data)`: a `defaultdict(set)` mapping
each post id to its set of user names (no trimming, no case folding).
The set is modelled as a duplicate-free list — `add` keeps the list
unchanged when the name is already present — so its `length` is the
`len` of the Python set. -/
def count_users_per_post (filtered_data : List ContributionRecord) :
    Int → List String :=
  filtered_data.foldl
    (fun m row pid =>
      if pid = row.post_id then
        (if (m pid).contains row.user then m pid else row.user :: m pid)
      else m pid)
    (fun _ => [])

/-- `user_contributions[user] += 1` on an insertion-ordered dict modelled
as an association list: bump the existing entry or append a new one. -/
def addContribution (u : String) : List (String × Nat) → List (String × Nat)
  | [] => [(u, 1)]
  | (k, v) :: rest =>
    if k = u then (k, v + 1) :: rest else (k, v) :: addContribution u rest

/-- `count_contributions_per_user(filtered_data)`: a `defaultdict(int)`
keyed by the trimmed user name (`row["user"].strip()`), in first-encounter
order (Python dicts preserve insertion order). -/
def count_contributions_per_user (filtered_data : List ContributionRecord) :
    List (String × Nat) :=
  filtered_data.foldl (fun m row => addContribution (strip row.user) m) []

/-- The order used by `sorted(..., key=lambda x: x[1], reverse=True)`:
descending by count, an earlier element kept before any tie (Python's
sort is stable, and so is `List.insertionSort` with this relation). -/
def countDesc (a b : String × Nat) : Prop := b.2 ≤ a.2

instance : DecidableRel countDesc :=
  fun a b => inferInstanceAs (Decidable (b.2 ≤ a.2))

instance : IsTotal (String × Nat) countDesc :=
  ⟨fun a b => le_total b.2 a.2⟩

instance : IsTrans (String × Nat) countDesc :=
  ⟨fun _ _ _ h1 h2 => le_trans h2 h1⟩

/-- The rows of `total_contributions_per_user.csv` built in `main`: the
per-user totals sorted descending by count. -/
def contributions_data (rs : List ContributionRecord) : List (String × Nat) :=
  List.insertionSort countDesc (count_contributions_per_user rs)

/-- Overwriting insert for the dict comprehension
`{entry["id"]: entry["title"] for entry in views_per_edition}` (a later
entry with the same id overwrites the earlier one). -/
def dictInsert (m : List (Int × String)) (k : Int) (v : String) :
    List (Int × String) :=
  match m with
  | [] => [(k, v)]
  | (k2, v2) :: rest =>
    if k2 = k then (k, v) :: rest else (k2, v2) :: dictInsert rest k v

/-- The `id_to_title` dict of `main`. -/
def id_to_title (views_per_edition : List Topic) : List (Int × String) :=
  views_per_edition.foldl (fun m e => dictInsert m e.id e.title) []

/-- `m.get(k, d)` on the association-list dict. -/
def dictGetD (m : List (Int × String)) (k : Int) (d : String) : String :=
  match m.find? (fun p => p.1 == k) with
  | some p => p.2
  | none => d

/-- One row of `bullhorn_filtered_lines.csv`: a contribution record plus
the topic title joined by id. -/
structure EnrichedRecord where
  post_id : Int
  title : String
  user : String
  matrix_link : String
deriving DecidableEq, Repr

/-- The enrichment loop of `main`: attach
`id_to_title.get(post_id, "")` to every record. -/
def enrich (views_per_edition : List Topic) (rs : List ContributionRecord) :
    List EnrichedRecord :=
  rs.map (fun r =>
    EnrichedRecord.mk r.post_id
      (dictGetD (id_to_title views_per_edition) r.post_id "") r.user
      r.matrix_link)

/-- Step 3 of `main`: for each fetched post id, fetch its raw markdown and
extend `filtered_data` with the extracted records. The already-recovered
body of each post (`fetch_raw_markdown` never fails, by definition) is
passed as `content`. -/
def collectFiltered (post_ids : List Int) (content : Int → String) :
    List ContributionRecord :=
  post_ids.foldl (fun acc pid => acc ++ extract_user_and_link pid (content pid)) []

/-! ### Predicates used to state the claims -/

/-- No keyword occurs, case-insensitively, after any closing parenthesis
of the line — in particular not after the closing parenthesis of a link. -/
def noKwAfterParen : List Char → Bool
  | [] => true
  | c :: rest =>
    (if c = ')' then !containsKeyword rest else true) && noKwAfterParen rest

/-! ### Concrete runs used as witnesses -/

/-- A remote catalog whose page 0 carries one topic and whose page 1
fails to fetch. -/
def pagesOneThenFail : Nat → PageResult := fun i =>
  if i = 0 then
    PageResult.success [RawTopic.mk (some 5) (some "Bullhorn 1") (some 3) (some 1)]
  else PageResult.failure

/-- A remote catalog whose page 0 carries one topic and whose page 1 is
an empty page. -/
def pagesOneThenEmpty : Nat → PageResult := fun i =>
  if i = 0 then
    PageResult.success [RawTopic.mk (some 7) (some "Edition 7") (some 10) (some 2)]
  else PageResult.success []

/-- A raw-content table: every post body is one matching line. -/
def contentAnn : Int → String := fun _ =>
  "[Ann](https://matrix.to/#/@ann:example.org) said hello"


/-! ### Lemmas and claim theorems -/

theorem chEqCI_refl (a : Char) : chEqCI a a = true := by
  simp [chEqCI]

theorem startsWithCI_self_append (p x : List Char) :
    startsWithCI p (p ++ x) = true := by
  induction p with
  | nil => rfl
  | cons a ps ih => simp [startsWithCI, chEqCI_refl, ih]

theorem startsWithCI_append_right {p xs : List Char} (ys : List Char)
    (h : startsWithCI p xs = true) : startsWithCI p (xs ++ ys) = true := by
  induction p generalizing xs with
  | nil => rfl
  | cons a ps ih =>
    cases xs with
    | nil => simp [startsWithCI] at h
    | cons c cs =>
      simp only [startsWithCI, Bool.and_eq_true] at h
      simp [startsWithCI, h.1, ih h.2]

theorem containsCI_nil_pat (ys : List Char) : containsCI [] ys = true := by
  cases ys <;> simp [containsCI, startsWithCI]

theorem containsCI_append_right {pat xs : List Char} (ys : List Char)
    (h : containsCI pat xs = true) : containsCI pat (xs ++ ys) = true := by
  induction xs with
  | nil =>
    simp only [containsCI] at h
    cases pat with
    | nil => exact containsCI_nil_pat ys
    | cons p ps => simp [startsWithCI] at h
  | cons c cs ih =>
    simp only [containsCI, Bool.or_eq_true] at h
    rcases h with h | h
    · have := startsWithCI_append_right ys h
      simp only [List.cons_append, containsCI, Bool.or_eq_true]
      exact Or.inl (by simpa using this)
    · simp only [List.cons_append, containsCI, Bool.or_eq_true]
      exact Or.inr (ih h)

theorem containsKeyword_append_right {xs : List Char} (ys : List Char)
    (h : containsKeyword xs = true) : containsKeyword (xs ++ ys) = true := by
  simp only [containsKeyword, List.any_eq_true] at h ⊢
  rcases h with ⟨k, hk, hc⟩
  exact ⟨k, hk, containsCI_append_right ys hc⟩

theorem containsKeyword_of_takeWhile {xs : List Char} {q : Char → Bool}
    (h : containsKeyword (xs.takeWhile q) = true) : containsKeyword xs = true := by
  have := containsKeyword_append_right (xs.dropWhile q) h
  rwa [List.takeWhile_append_dropWhile] at this

theorem splitAtParen_eq {cs a b : List Char}
    (h : splitAtParen cs = some (a, b)) : cs = a ++ ')' :: b := by
  induction cs generalizing a with
  | nil => simp [splitAtParen] at h
  | cons c rest ih =>
    by_cases hc : c = ')'
    · subst hc
      simp [splitAtParen] at h
      simp [h.1.symm, h.2.symm]
    · simp only [splitAtParen, if_neg hc, Option.map_eq_some'] at h
      rcases h with ⟨p, hp, hpa⟩
      cases p with
      | mk p1 p2 =>
        cases hpa
        simp [ih hp]

theorem splitAtParen_no_paren {a : List Char} (b : List Char)
    (h : ')' ∉ a) : splitAtParen (a ++ ')' :: b) = some (a, b) := by
  induction a with
  | nil => simp [splitAtParen]
  | cons c cs ih =>
    have hc : c ≠ ')' := fun hc => h (hc ▸ List.mem_cons_self c cs)
    have hcs : ')' ∉ cs := fun hm => h (List.mem_cons_of_mem c hm)
    simp [splitAtParen, if_neg hc, ih hcs]

theorem matchLink_some {cs link after : List Char}
    (h : matchLink cs = some (link, after)) : ∃ u, cs = u ++ ')' :: after := by
  unfold matchLink at h
  by_cases hs : startsWithCI matrixStart cs = true
  · rw [if_pos hs] at h
    rcases hsp : splitAtParen (cs.drop matrixStart.length) with _ | ⟨body, rest⟩
    · rw [hsp] at h; simp at h
    · rw [hsp] at h
      by_cases hb : body.isEmpty
      · simp [hb] at h
      · simp [hb] at h
        have hdrop := splitAtParen_eq hsp
        refine ⟨cs.take matrixStart.length ++ body, ?_⟩
        conv_lhs => rw [← List.take_append_drop matrixStart.length cs]
        rw [hdrop, h.2, List.append_assoc]
  · rw [if_neg hs] at h; simp at h

theorem matchLink_concrete {rest : List Char} (tail : List Char)
    (h2 : ')' ∉ rest) (h3 : rest ≠ []) :
    matchLink (matrixStart ++ rest ++ ')' :: tail) =
      some (matrixStart ++ rest, tail) := by
  unfold matchLink
  rw [if_pos]
  · have hd : (matrixStart ++ rest ++ ')' :: tail).drop matrixStart.length
        = rest ++ ')' :: tail := by
      rw [List.append_assoc, List.drop_left]
    have ht : (matrixStart ++ rest ++ ')' :: tail).take matrixStart.length
        = matrixStart := by
      rw [List.append_assoc, List.take_left]
    rw [hd, splitAtParen_no_paren _ h2, ht]
    simp [List.isEmpty_iff, h3]
  · rw [List.append_assoc]
    exact startsWithCI_self_append _ _

theorem tryCloseAt_some {cs link : List Char} (h : tryCloseAt cs = some link) :
    ∃ u v, cs = u ++ ')' :: v ∧ containsKeyword v = true := by
  rcases cs with _ | ⟨c1, _ | ⟨c2, rest⟩⟩
  · simp [tryCloseAt] at h
  · simp [tryCloseAt] at h
  · rw [tryCloseAt] at h
    by_cases hc1 : c1 = ']'
    swap
    · rw [if_neg hc1] at h; simp at h
    by_cases hc2 : c2 = '('
    swap
    · rw [if_pos hc1, if_neg hc2] at h; simp at h
    rw [if_pos hc1, if_pos hc2] at h
    subst hc1; subst hc2
    rcases hml : matchLink rest with _ | ⟨mlink, after⟩
    · rw [hml] at h; simp at h
    · rw [hml] at h
      by_cases hkw : containsKeyword (after.takeWhile (fun c => c != '\n')) = true
      · rcases matchLink_some hml with ⟨u, hu⟩
        exact ⟨']' :: '(' :: u, after, by simp [hu],
          containsKeyword_of_takeWhile hkw⟩
      · simp [hkw] at h

theorem tryCloseAt_ne_bracket {c : Char} (cs : List Char) (h : c ≠ ']') :
    tryCloseAt (c :: cs) = none := by
  rcases cs with _ | ⟨c2, rest⟩
  · rfl
  · rw [tryCloseAt, if_neg h]

theorem tryCloseAt_concrete {rest : List Char} (tail : List Char)
    (h2 : ')' ∉ rest) (h3 : rest ≠ [])
    (h4 : containsKeyword (tail.takeWhile (fun c => c != '\n')) = true) :
    tryCloseAt (']' :: '(' :: (matrixStart ++ rest ++ ')' :: tail)) =
      some (matrixStart ++ rest) := by
  rw [tryCloseAt, if_pos rfl, if_pos rfl, matchLink_concrete tail h2 h3]
  simp [h4]

theorem matchAfterBracket_some {acc cs : List Char}
    {r : List Char × List Char} (h : matchAfterBracket acc cs = some r) :
    ∃ u v, cs = u ++ ')' :: v ∧ containsKeyword v = true := by
  induction cs generalizing acc with
  | nil => simp [matchAfterBracket] at h
  | cons c rest ih =>
    rw [matchAfterBracket] at h
    rcases htc : tryCloseAt (c :: rest) with _ | link
    · rw [htc] at h
      by_cases hc : c == '\n'
      · simp [hc] at h
      · simp only [hc, if_false, Bool.false_eq_true] at h
        rcases ih h with ⟨u, v, huv, hkw⟩
        exact ⟨c :: u, v, by simp [huv], hkw⟩
    · rw [htc] at h
      rcases tryCloseAt_some htc with ⟨u, v, huv, hkw⟩
      exact ⟨u, v, huv, hkw⟩

theorem matchAfterBracket_concrete {name rest0 link : List Char}
    (h1 : ']' ∉ name) (hn : '\n' ∉ name)
    (h : tryCloseAt (']' :: '(' :: rest0) = some link) :
    ∀ acc, matchAfterBracket acc (name ++ ']' :: '(' :: rest0) =
      some (acc.reverse ++ name, link) := by
  induction name with
  | nil =>
    intro acc
    rw [List.nil_append, matchAfterBracket, h]
    simp
  | cons c cs ih =>
    intro acc
    have hc : c ≠ ']' := fun hc => h1 (hc ▸ List.mem_cons_self c cs)
    have hcn : c ≠ '\n' := fun hc => hn (hc ▸ List.mem_cons_self c cs)
    have h1' : ']' ∉ cs := fun hm => h1 (List.mem_cons_of_mem c hm)
    have hn' : '\n' ∉ cs := fun hm => hn (List.mem_cons_of_mem c hm)
    rw [List.cons_append, matchAfterBracket,
      tryCloseAt_ne_bracket _ hc]
    simp only [beq_iff_eq, hcn, if_false]
    rw [ih h1' hn' (c :: acc)]
    simp

end Bullhorn
namespace Bullhorn

theorem matchAt_some {cs : List Char} {r : List Char × List Char}
    (h : matchAt cs = some r) :
    ∃ u v, cs = u ++ ')' :: v ∧ containsKeyword v = true := by
  rcases cs with _ | ⟨c, rest⟩
  · simp [matchAt] at h
  · by_cases hc : c = '['
    · subst hc
      rw [matchAt] at h
      rcases matchAfterBracket_some h with ⟨u, v, huv, hkw⟩
      exact ⟨'[' :: u, v, by simp [huv], hkw⟩
    · rw [matchAt] at h
      · simp at h
      · intro rest1 he
        injection he with he1 _
        exact hc he1

theorem searchLine_some {l : List Char} {r : List Char × List Char}
    (h : searchLine l = some r) :
    ∃ u v, l = u ++ ')' :: v ∧ containsKeyword v = true := by
  induction l with
  | nil => simp [searchLine] at h
  | cons c rest ih =>
    rw [searchLine] at h
    rcases hm : matchAt (c :: rest) with _ | r2
    · rw [hm] at h
      rcases ih h with ⟨u, v, huv, hkw⟩
      exact ⟨c :: u, v, by simp [huv], hkw⟩
    · rw [hm] at h
      exact matchAt_some hm

theorem noKwAfterParen_false {u v : List Char}
    (hkw : containsKeyword v = true) :
    noKwAfterParen (u ++ ')' :: v) = false := by
  induction u with
  | nil =>
    simp [noKwAfterParen, hkw]
  | cons c cs ih =>
    simp [noKwAfterParen, ih]

theorem searchLine_none_of_noKw {l : List Char}
    (h : noKwAfterParen l = true) : searchLine l = none := by
  rcases hs : searchLine l with _ | r
  · rfl
  · rcases searchLine_some hs with ⟨u, v, huv, hkw⟩
    rw [huv, noKwAfterParen_false hkw] at h
    cases h

/-- C4: on the raw text
`[Alice](https://matrix.to/#/@alice:example.org) shared something` and any
topic identifier, the extractor yields exactly one record, with user
`Alice` and the full matrix URI as link. -/
theorem extractor_alice (post_id : Int) :
    extract_user_and_link post_id
        "[Alice](https://matrix.to/#/@alice:example.org) shared something" =
      [ContributionRecord.mk post_id "Alice"
        "https://matrix.to/#/@alice:example.org"] := rfl

/-- C6: the extractor produces at most one contribution record per
physical line (the first match only), so the number of records never
exceeds the number of lines. -/
theorem extractor_at_most_one_per_line (post_id : Int) (markdown_text : String) :
    (extract_user_and_link post_id markdown_text).length ≤
      (splitlines markdown_text).length :=
  List.length_filterMap_le _ _

/-- C5: when, on every line of the text, no keyword occurs after a closing
parenthesis — in particular the keywords occur only before the link's
closing parenthesis — the extractor produces no record. -/
theorem extractor_no_record_when_keyword_before (post_id : Int) (s : String)
    (h : ∀ line ∈ splitlines s, noKwAfterParen line.data = true) :
    extract_user_and_link post_id s = [] := by
  unfold extract_user_and_link
  rw [List.filterMap_eq_nil_iff]
  intro line hline
  rw [searchLine_none_of_noKw (h line hline)]
  rfl

/-- Witness for C5: a concrete line whose only keyword stands before the
link produces no record. -/
theorem extractor_no_record_witness :
    (∀ line ∈ splitlines "He shared stuff, see [Alice](https://matrix.to/#/@alice:example.org), cheers",
      noKwAfterParen line.data = true) ∧
    extract_user_and_link 3
      "He shared stuff, see [Alice](https://matrix.to/#/@alice:example.org), cheers" = [] :=
  ⟨by decide, extractor_no_record_when_keyword_before 3 _ (by decide)⟩

/-- C10: keyword matching is substring-based, not word-based — any line of
shape `[name](matrix-link)tail` whose tail contains a keyword anywhere,
also inside a longer word, produces a match capturing the name and the
link. -/
theorem extractor_substring_keyword (name rest tail : List Char)
    (h1 : ']' ∉ name) (hn : '\n' ∉ name) (h2 : ')' ∉ rest) (h3 : rest ≠ [])
    (h4 : containsKeyword (tail.takeWhile (fun c => c != '\n')) = true) :
    searchLine ('[' :: (name ++ ']' :: '(' :: (matrixStart ++ rest ++ ')' :: tail))) =
      some (name, matrixStart ++ rest) := by
  have htc := tryCloseAt_concrete tail h2 h3 h4
  have hmb := matchAfterBracket_concrete h1 hn htc []
  rw [searchLine, matchAt, hmb]
  simp

/-- Witness for C10: a keyword occurring only inside the longer word
`unshared` still produces a record. -/
theorem extractor_substring_keyword_witness :
    containsKeyword ((" unshared with everyone".data).takeWhile (fun c => c != '\n')) = true ∧
    searchLine ('[' :: ("Alice".data ++ ']' :: '(' ::
        (matrixStart ++ "alice:example.org".data ++ ')' :: " unshared with everyone".data))) =
      some ("Alice".data, matrixStart ++ "alice:example.org".data) :=
  ⟨by decide, extractor_substring_keyword "Alice".data "alice:example.org".data
    " unshared with everyone".data (by decide) (by decide) (by decide) (by decide) (by decide)⟩

/-- C3: the Content Fetcher returns the raw body on success and the empty
string on any fetch failure (timeout, transport error or non-success
status); being a total function, it never propagates a failure. -/
theorem content_fetcher_total (text : String) (e : RequestError) :
    fetch_raw_markdown (FetchOutcome.ok text) = text ∧
    fetch_raw_markdown (FetchOutcome.err e) = "" :=
  ⟨rfl, rfl⟩

/-- C1: for two records on one topic with users `Bob` and `bob ` (trailing
space), the per-topic unique-user count treats them as two distinct
contributors, while the per-user totals trim `bob ` to `bob` and count it
separately from `Bob` — untrimmed dedup per topic, trimmed keys per
user. -/
theorem user_counting_asymmetry (t : Int) (l1 l2 : String) :
    (count_users_per_post
        [ContributionRecord.mk t "Bob" l1, ContributionRecord.mk t "bob " l2] t).length = 2 ∧
    count_contributions_per_user
        [ContributionRecord.mk t "Bob" l1, ContributionRecord.mk t "bob " l2] =
      [("Bob", 1), ("bob", 1)] := by
  constructor
  · simp only [count_users_per_post, List.foldl]
    simp
  · simp only [count_contributions_per_user, List.foldl]
    decide

/-- C7: the exported per-user totals sequence is non-increasing in
contribution count: each row's count is at least the next row's. -/
theorem totals_sorted_desc (rs : List ContributionRecord) :
    List.Chain' countDesc (contributions_data rs) :=
  (List.sorted_insertionSort countDesc (count_contributions_per_user rs)).chain'

theorem dictInsert_mem {m : List (Int × String)} {k : Int} {v : String}
    {q : Int × String} (h : q ∈ dictInsert m k v) : q = (k, v) ∨ q ∈ m := by
  induction m with
  | nil => simp [dictInsert] at h; simp [h]
  | cons e rest ih =>
    rw [dictInsert] at h
    by_cases he : e.1 = k
    · rw [if_pos he] at h
      rcases List.mem_cons.1 h with h | h
      · exact Or.inl h
      · exact Or.inr (List.mem_cons_of_mem _ h)
    · rw [if_neg he] at h
      rcases List.mem_cons.1 h with h | h
      · exact Or.inr (h ▸ List.mem_cons_self _ _)
      · rcases ih h with h2 | h2
        · exact Or.inl h2
        · exact Or.inr (List.mem_cons_of_mem _ h2)

theorem id_to_title_keys_aux (pid : Int) :
    ∀ (ves : List Topic) (m : List (Int × String)),
      (∀ q ∈ m, q.1 ≠ pid) → pid ∉ ves.map Topic.id →
      ∀ q ∈ ves.foldl (fun acc e => dictInsert acc e.id e.title) m, q.1 ≠ pid := by
  intro ves
  induction ves with
  | nil =>
    intro m hm _
    simpa using hm
  | cons e rest ih =>
    intro m hm hid
    rw [List.foldl_cons]
    have hne : e.id ≠ pid := by
      intro he
      exact hid (by simp [he])
    have hrest : pid ∉ rest.map Topic.id := by
      intro hmem
      exact hid (by simp [hmem])
    apply ih
    · intro q hq
      rcases dictInsert_mem hq with h2 | h2
      · rw [h2]
        exact hne
      · exact hm q h2
    · exact hrest

theorem id_to_title_find_none {ves : List Topic} {pid : Int}
    (hid : pid ∉ ves.map Topic.id) :
    (id_to_title ves).find? (fun p => p.1 == pid) = none := by
  rw [List.find?_eq_none]
  intro q hq
  simp only [beq_iff_eq]
  exact id_to_title_keys_aux pid ves [] (by simp) hid q hq

/-- C8: a record whose topic identifier has no matching topic is enriched
with the empty string as title — enrichment never fetches or fails. -/
theorem enrichment_missing_title (ves : List Topic) (rs : List ContributionRecord)
    (r : ContributionRecord) (hmem : r ∈ rs) (hid : r.post_id ∉ ves.map Topic.id) :
    EnrichedRecord.mk r.post_id "" r.user r.matrix_link ∈ enrich ves rs := by
  have hget : dictGetD (id_to_title ves) r.post_id "" = "" := by
    unfold dictGetD
    rw [id_to_title_find_none hid]
  unfold enrich
  refine List.mem_map.2 ⟨r, hmem, ?_⟩
  rw [hget]

/-- Witness for C8: a record for topic 2 joined against a catalog that
only knows topic 1 gets the empty title. -/
theorem enrichment_missing_title_witness :
    EnrichedRecord.mk 2 "" "u" "l" ∈
      enrich [Topic.mk 1 "T" 4 5] [ContributionRecord.mk 2 "u" "l"] :=
  enrichment_missing_title [Topic.mk 1 "T" 4 5] [ContributionRecord.mk 2 "u" "l"]
    (ContributionRecord.mk 2 "u" "l") (by decide) (by decide)

theorem fetchLoop_run (pages : Nat → PageResult) :
    ∀ (N : Nat) (fuel p : Nat) (ids : List Int) (ves : List Topic),
      isTerminal (pages (p + N)) = true →
      (∀ i, i < N → nonEmptySuccess (pages (p + i)) = true) →
      N < fuel →
      fetchLoop pages fuel p ids ves =
        (ids ++ ((List.range N).map
            (fun i => (processTopics (topicsOf (pages (p + i)))).1)).flatten,
         ves ++ ((List.range N).map
            (fun i => (processTopics (topicsOf (pages (p + i)))).2)).flatten) := by
  intro N
  induction N with
  | zero =>
    intro fuel p ids ves hterm _ hfuel
    simp only [Nat.add_zero] at hterm
    rcases fuel with _ | f
    · omega
    rw [fetchLoop]
    rcases hp : pages p with _ | ts
    · simp
    · rw [hp] at hterm
      cases ts with
      | nil => simp
      | cons a b => simp [isTerminal] at hterm
  | succ N ih =>
    intro fuel p ids ves hterm hprev hfuel
    rcases fuel with _ | f
    · omega
    have h0 := hprev 0 (Nat.succ_pos N)
    simp only [Nat.add_zero] at h0
    rcases hp : pages p with _ | ts
    · rw [hp] at h0
      simp [nonEmptySuccess] at h0
    rcases ts with _ | ⟨t, ts'⟩
    · rw [hp] at h0
      simp [nonEmptySuccess] at h0
    have hterm' : isTerminal (pages (p + 1 + N)) = true := by
      have e : p + 1 + N = p + (N + 1) := by omega
      rw [e]
      exact hterm
    have hprev' : ∀ i, i < N → nonEmptySuccess (pages (p + 1 + i)) = true := by
      intro i hi
      have e : p + 1 + i = p + (i + 1) := by omega
      rw [e]
      exact hprev (i + 1) (by omega)
    have ihh := ih f (p + 1) (ids ++ (processTopics (t :: ts')).1)
      (ves ++ (processTopics (t :: ts')).2) hterm' hprev' (by omega)
    rw [fetchLoop, hp]
    simp only [List.isEmpty_cons, Bool.false_eq_true, if_false]
    rw [ihh, List.range_succ_eq_map]
    simp only [List.map_cons, List.flatten_cons, List.map_map, Nat.add_zero, hp]
    have htop : topicsOf (PageResult.success (t :: ts')) = t :: ts' := rfl
    rw [htop]
    have hcomp1 : ((fun i => (processTopics (topicsOf (pages (p + i)))).1) ∘ Nat.succ)
        = (fun i => (processTopics (topicsOf (pages (p + 1 + i)))).1) := by
      funext i
      simp only [Function.comp_apply]
      have e : p + Nat.succ i = p + 1 + i := by omega
      rw [e]
    have hcomp2 : ((fun i => (processTopics (topicsOf (pages (p + i)))).2) ∘ Nat.succ)
        = (fun i => (processTopics (topicsOf (pages (p + 1 + i)))).2) := by
      funext i
      simp only [Function.comp_apply]
      have e : p + Nat.succ i = p + 1 + i := by omega
      rw [e]
    rw [hcomp1, hcomp2]
    simp [List.append_assoc]

/-- C2: when page `N` is the first page that fails to fetch or carries no
topics, the Topic Lister terminates and returns exactly the identifiers
and metadata accumulated from pages `0 .. N-1`, in page order then
intra-page order. -/
theorem topic_lister_partial (pages : Nat → PageResult) (N fuel : Nat)
    (hterm : isTerminal (pages N) = true)
    (hprev : ∀ i, i < N → nonEmptySuccess (pages i) = true)
    (hfuel : N < fuel) :
    fetch_all_bullhorn_topics pages fuel = (pagesIds pages N, pagesTopics pages N) := by
  unfold fetch_all_bullhorn_topics pagesIds pagesTopics
  have h := fetchLoop_run pages N fuel 0 [] []
    (by simpa using hterm) (by simpa using hprev) hfuel
  simpa using h

/-- Witness for C2: one successful page followed by a failing page yields
exactly that page's topic. -/
theorem topic_lister_partial_witness :
    isTerminal (pagesOneThenFail 1) = true ∧
    fetch_all_bullhorn_topics pagesOneThenFail 2 =
      (pagesIds pagesOneThenFail 1, pagesTopics pagesOneThenFail 1) ∧
    pagesIds pagesOneThenFail 1 = [5] ∧
    pagesTopics pagesOneThenFail 1 = [Topic.mk 5 "Bullhorn 1" 3 1] :=
  ⟨by decide,
   topic_lister_partial pagesOneThenFail 1 2 (by decide) (by decide) (by decide),
   by decide, by decide⟩

theorem extract_post_id {post_id : Int} {s : String} {r : ContributionRecord}
    (h : r ∈ extract_user_and_link post_id s) : r.post_id = post_id := by
  unfold extract_user_and_link at h
  rcases List.mem_filterMap.1 h with ⟨line, _, hf⟩
  rcases Option.map_eq_some'.1 hf with ⟨p, _, hp⟩
  rw [← hp]

theorem collectFiltered_mem {post_ids : List Int} {content : Int → String}
    {r : ContributionRecord} (h : r ∈ collectFiltered post_ids content) :
    r.post_id ∈ post_ids := by
  unfold collectFiltered at h
  have haux : ∀ (ids : List Int) (acc : List ContributionRecord),
      r ∈ ids.foldl (fun acc pid => acc ++ extract_user_and_link pid (content pid)) acc →
      r ∈ acc ∨ r.post_id ∈ ids := by
    intro ids
    induction ids with
    | nil =>
      intro acc hacc
      exact Or.inl (by simpa using hacc)
    | cons pid rest ih =>
      intro acc hacc
      rw [List.foldl_cons] at hacc
      rcases ih _ hacc with h2 | h2
      · rcases List.mem_append.1 h2 with h3 | h3
        · exact Or.inl h3
        · exact Or.inr (by simp [extract_post_id h3])
      · exact Or.inr (List.mem_cons_of_mem _ h2)
  rcases haux post_ids [] h with h2 | h2
  · simp at h2
  · exact h2

theorem processTopics_aux (topics : List RawTopic) :
    ∀ acc : List Int × List Topic, acc.1 = acc.2.map Topic.id →
      (topics.foldl
        (fun acc t =>
          if truthyId t.id then
            (acc.1 ++ [t.id.getD 0],
             acc.2 ++ [Topic.mk (t.id.getD 0) (strip (t.title.getD ""))
               (t.views.getD 0) (t.like_count.getD 0)])
          else acc)
        acc).1 =
      ((topics.foldl
        (fun acc t =>
          if truthyId t.id then
            (acc.1 ++ [t.id.getD 0],
             acc.2 ++ [Topic.mk (t.id.getD 0) (strip (t.title.getD ""))
               (t.views.getD 0) (t.like_count.getD 0)])
          else acc)
        acc).2).map Topic.id := by
  induction topics with
  | nil =>
    intro acc h
    simpa using h
  | cons t rest ih =>
    intro acc h
    refine ih _ ?_
    by_cases ht : truthyId t.id
    · simp [ht, h]
    · simp [ht, h]

theorem processTopics_ids_eq (topics : List RawTopic) :
    (processTopics topics).1 = (processTopics topics).2.map Topic.id := by
  unfold processTopics
  exact processTopics_aux topics ([], []) rfl

theorem fetchLoop_ids_eq (pages : Nat → PageResult) :
    ∀ (fuel p : Nat) (ids : List Int) (ves : List Topic),
      ids = ves.map Topic.id →
      (fetchLoop pages fuel p ids ves).1 =
        ((fetchLoop pages fuel p ids ves).2).map Topic.id := by
  intro fuel
  induction fuel with
  | zero =>
    intro p ids ves h
    simpa [fetchLoop] using h
  | succ f ih =>
    intro p ids ves h
    rw [fetchLoop]
    rcases hp : pages p with _ | ts
    · simpa using h
    · by_cases hemp : ts.isEmpty
      · simp [hemp, h]
      · simp only [hemp, Bool.false_eq_true, if_false]
        apply ih
        rw [List.map_append, ← processTopics_ids_eq, h]

/-- C9: every record collected by the pipeline carries a post id returned
by the listing stage, so it has a corresponding topic. -/
theorem records_have_topics (pages : Nat → PageResult) (fuel : Nat)
    (content : Int → String) (r : ContributionRecord)
    (h : r ∈ collectFiltered (fetch_all_bullhorn_topics pages fuel).1 content) :
    r.post_id ∈ ((fetch_all_bullhorn_topics pages fuel).2).map Topic.id := by
  have h1 := collectFiltered_mem h
  unfold fetch_all_bullhorn_topics at h1 ⊢
  rwa [fetchLoop_ids_eq pages fuel 0 [] [] rfl] at h1

/-- Witness for C9: a record extracted in a concrete run has a matching
topic. -/
theorem records_have_topics_witness :
    ContributionRecord.mk 7 "Ann" "https://matrix.to/#/@ann:example.org" ∈
      collectFiltered (fetch_all_bullhorn_topics pagesOneThenEmpty 2).1 contentAnn ∧
    (7 : Int) ∈ ((fetch_all_bullhorn_topics pagesOneThenEmpty 2).2).map Topic.id :=
  ⟨by decide,
   records_have_topics pagesOneThenEmpty 2 contentAnn
     (ContributionRecord.mk 7 "Ann" "https://matrix.to/#/@ann:example.org") (by decide)⟩

end Bullhorn
